import Mathlib

/-!
Shallow embedding of the `SearchAction` result scorer from
`Assignment_7/action.py`, together with proofs of the specified
properties of `process_search_results`.

Strings are modelled as `List Char`, Python floats as `ℚ`, and Python
sets of strings as `Finset (List Char)`.
-/

/-- The `SearchAction` object: the three fields set by `__init__`. -/
structure SearchAction where
  min_confidence_threshold : ℚ
  semantic_weight : ℚ
  term_weight : ℚ
deriving DecidableEq

/-- `SearchAction()`: `__init__` sets the thresholds 0.4, 0.7, 0.3. -/
def SearchAction.new : SearchAction :=
  { min_confidence_threshold := 2/5, semantic_weight := 7/10, term_weight := 3/10 }

/-- A raw search-result record `{distance, query, url}` with all keys present. -/
structure RawResult where
  distance : ℚ
  query : List Char
  url : List Char
deriving DecidableEq

/-- The `highlight_instructions` sub-record of a scored result. -/
structure HighlightInstructions where
  method : List Char
  confidence_threshold : ℚ
deriving DecidableEq

/-- A scored search-result record as built by `process_search_results`. -/
structure ScoredResult where
  url : List Char
  confidence : ℚ
  semantic_score : ℚ
  term_score : ℚ
  highlight_instructions : HighlightInstructions
deriving DecidableEq

/-- Helper for Python `str.split()`: `cur` is the current word, reversed. -/
def splitWsAux : List Char → List Char → List (List Char)
  | [], cur => if cur = [] then [] else [cur.reverse]
  | c :: cs, cur =>
    if c.isWhitespace then
      if cur = [] then splitWsAux cs [] else cur.reverse :: splitWsAux cs []
    else splitWsAux cs (c :: cur)

/-- Python `str.split()`: split on runs of whitespace, discarding empty chunks. -/
def splitWs (l : List Char) : List (List Char) := splitWsAux l []

/-- Python `str.split('/')`: split at every `'/'`, keeping empty chunks. -/
def splitSlash : List Char → List (List Char)
  | [] => [[]]
  | c :: cs =>
    if c = '/' then [] :: splitSlash cs
    else
      match splitSlash cs with
      | [] => [[c]]
      | t :: ts => (c :: t) :: ts

/-- `result['url'].lower().replace('-', ' ').replace('_', ' ')`. -/
def lowerRepl (s : List Char) : List Char :=
  (s.map Char.toLower).map fun c => if c = '-' then ' ' else if c = '_' then ' ' else c

/-- `set(result['query'].lower().split())`. -/
def query_terms (query : List Char) : Finset (List Char) :=
  (splitWs (query.map Char.toLower)).toFinset

/-- `set(url.split('/'))` updated with `url.split()`, on the lowered/replaced url. -/
def url_terms (url : List Char) : Finset (List Char) :=
  (splitSlash (lowerRepl url)).toFinset ∪ (splitWs (lowerRepl url)).toFinset

/-- `sum(1 for term in query_terms if any(term == url_term for url_term in url_terms))`. -/
def exact_matches (query url : List Char) : ℕ :=
  ∑ t ∈ query_terms query, if ∃ s ∈ url_terms url, t = s then 1 else 0

/-- `sum(1 for term in query_terms if any(term in url_term for url_term in url_terms))`;
named `partial_matches` in the source. -/
def sub_matches (query url : List Char) : ℕ :=
  ∑ t ∈ query_terms query, if ∃ s ∈ url_terms url, t <:+: s then 1 else 0

/-- `(exact_matches + 0.5 * partial_matches) / len(query_terms) if query_terms else 0`. -/
def term_match_score (query url : List Char) : ℚ :=
  if query_terms query ≠ ∅ then
    (exact_matches query url + (1/2) * sub_matches query url) / (query_terms query).card
  else 0

/-- `semantic_similarity = 1.0 / (1.0 + result['distance'])`. -/
def semantic_similarity (distance : ℚ) : ℚ := 1 / (1 + distance)

/-- The clamped confidence of one record:
`confidence = (semantic_similarity * semantic_weight) + (term_match_score * term_weight)`
followed by `confidence = max(0.0, min(1.0, confidence))`. -/
def confidenceOf (a : SearchAction) (r : RawResult) : ℚ :=
  max 0 (min 1 (semantic_similarity r.distance * a.semantic_weight +
    term_match_score r.query r.url * a.term_weight))

/-- Python `round` to an integer: round half to even (banker's rounding). -/
def pyRound (q : ℚ) : ℤ :=
  if q - (⌊q⌋ : ℚ) = 1/2 then (if ⌊q⌋ % 2 = 0 then ⌊q⌋ else ⌊q⌋ + 1) else round q

/-- Python `round(q, 3)`. -/
def round3 (q : ℚ) : ℚ := (pyRound (q * 1000) : ℚ) / 1000

/-- The record appended for a result that passes the confidence threshold. -/
def scoredResult (a : SearchAction) (r : RawResult) : ScoredResult :=
  { url := r.url
    confidence := round3 (confidenceOf a r)
    semantic_score := round3 (semantic_similarity r.distance)
    term_score := round3 (term_match_score r.query r.url)
    highlight_instructions :=
      { method := "semantic_highlight".toList
        confidence_threshold := confidenceOf a r } }

/-- `processed_results.sort(key=lambda x: x['confidence'], reverse=True)`. -/
def sortByConfidence (l : List ScoredResult) : List ScoredResult :=
  l.mergeSort fun x y => decide (y.confidence ≤ x.confidence)

/-- One iteration of the accumulation loop: append the scored record when its
confidence reaches the threshold. -/
def appendScored (a : SearchAction) (acc : List ScoredResult) (r : RawResult) :
    List ScoredResult :=
  if confidenceOf a r ≥ a.min_confidence_threshold then acc ++ [scoredResult a r] else acc

/-- `SearchAction.process_search_results`. -/
def process_search_results (a : SearchAction) (results : List RawResult) :
    List ScoredResult :=
  if results = [] then []
  else sortByConfidence (results.foldl (appendScored a) [])

/-! ### Helper lemmas -/

theorem floor_le_pyRound (q : ℚ) : ⌊q⌋ ≤ pyRound q := by
  unfold pyRound
  split
  · split <;> omega
  · rw [round_eq]
    exact Int.floor_mono (by linarith)

theorem pyRound_le_ceil (q : ℚ) : pyRound q ≤ ⌈q⌉ := by
  unfold pyRound
  split
  · rename_i h
    have hq : (⌊q⌋ : ℚ) < q := by linarith
    have hlt : ⌊q⌋ < ⌈q⌉ := Int.lt_ceil.mpr hq
    split <;> omega
  · rw [round_eq]
    have h2 : q + 1/2 < ((⌈q⌉ + 1 : ℤ) : ℚ) := by
      have := Int.le_ceil q
      push_cast
      linarith
    have h3 : ⌊q + 1/2⌋ < ⌈q⌉ + 1 := Int.floor_lt.mpr h2
    omega

theorem le_round3 {z : ℤ} {q : ℚ} (h : (z : ℚ) / 1000 ≤ q) :
    (z : ℚ) / 1000 ≤ round3 q := by
  have h1 : (z : ℚ) ≤ q * 1000 := by
    rw [div_le_iff₀ (by norm_num : (0:ℚ) < 1000)] at h
    exact h
  have h2 : z ≤ ⌊q * 1000⌋ := Int.le_floor.mpr h1
  have h3 : z ≤ pyRound (q * 1000) := le_trans h2 (floor_le_pyRound _)
  have h4 : (z : ℚ) ≤ (pyRound (q * 1000) : ℚ) := by exact_mod_cast h3
  unfold round3
  gcongr

theorem round3_le {z : ℤ} {q : ℚ} (h : q ≤ (z : ℚ) / 1000) :
    round3 q ≤ (z : ℚ) / 1000 := by
  have h1 : q * 1000 ≤ (z : ℚ) := by
    rw [le_div_iff₀ (by norm_num : (0:ℚ) < 1000)] at h
    exact h
  have h2 : ⌈q * 1000⌉ ≤ z := Int.ceil_le.mpr h1
  have h3 : pyRound (q * 1000) ≤ z := le_trans (pyRound_le_ceil _) h2
  have h4 : (pyRound (q * 1000) : ℚ) ≤ (z : ℚ) := by exact_mod_cast h3
  unfold round3
  gcongr

theorem confidenceOf_nonneg (a : SearchAction) (r : RawResult) :
    0 ≤ confidenceOf a r :=
  le_max_left 0 _

theorem confidenceOf_le_one (a : SearchAction) (r : RawResult) :
    confidenceOf a r ≤ 1 :=
  max_le (by norm_num) (min_le_left 1 _)

theorem foldl_appendScored (a : SearchAction) (results : List RawResult)
    (acc : List ScoredResult) :
    results.foldl (appendScored a) acc =
      acc ++ results.filterMap fun r =>
        if confidenceOf a r ≥ a.min_confidence_threshold then some (scoredResult a r)
        else none := by
  induction results generalizing acc with
  | nil => simp
  | cons r rs ih =>
    rw [List.foldl_cons, ih]
    unfold appendScored
    by_cases h : confidenceOf a r ≥ a.min_confidence_threshold
    · simp [List.filterMap_cons, h]
    · simp [List.filterMap_cons, h]

theorem process_eq_sort_filterMap (a : SearchAction) (results : List RawResult) :
    process_search_results a results =
      sortByConfidence (results.filterMap fun r =>
        if confidenceOf a r ≥ a.min_confidence_threshold then some (scoredResult a r)
        else none) := by
  unfold process_search_results
  split
  · rename_i h
    subst h
    simp [sortByConfidence]
  · rw [foldl_appendScored]
    simp

theorem process_perm_filterMap (a : SearchAction) (results : List RawResult) :
    (process_search_results a results).Perm
      (results.filterMap fun r =>
        if confidenceOf a r ≥ a.min_confidence_threshold then some (scoredResult a r)
        else none) := by
  rw [process_eq_sort_filterMap]
  exact List.mergeSort_perm _ _

theorem filterMap_threshold_eq_map_filter (a : SearchAction) (results : List RawResult) :
    (results.filterMap fun r =>
        if confidenceOf a r ≥ a.min_confidence_threshold then some (scoredResult a r)
        else none) =
      (results.filter fun r =>
        decide (confidenceOf a r ≥ a.min_confidence_threshold)).map (scoredResult a) := by
  induction results with
  | nil => rfl
  | cons r rs ih =>
    by_cases h : confidenceOf a r ≥ a.min_confidence_threshold
    · simp [List.filterMap_cons, List.filter_cons, h, ih]
    · simp [List.filterMap_cons, List.filter_cons, h, ih]

/-! ### Claims -/

/-- C7: `process_search_results` applied to an empty input list returns an
empty list and raises no error. -/
theorem process_search_results_empty :
    process_search_results SearchAction.new [] = [] := by
  simp [process_search_results]

/-- C4: for every record with distance `d ≥ 0`, the computed semantic
similarity equals `1 / (1 + d)` and lies in the half-open interval `(0, 1]`. -/
theorem semantic_similarity_mem_Ioc (d : ℚ) (h : 0 ≤ d) :
    semantic_similarity d = 1 / (1 + d) ∧
      0 < semantic_similarity d ∧ semantic_similarity d ≤ 1 := by
  have h1 : (0:ℚ) < 1 + d := by linarith
  refine ⟨rfl, ?_, ?_⟩
  · unfold semantic_similarity
    positivity
  · unfold semantic_similarity
    rw [div_le_one h1]
    linarith

/-- Witness for C4 at `d = 3`. -/
theorem semantic_similarity_mem_Ioc_witness :
    0 ≤ (3:ℚ) ∧ (semantic_similarity 3 = 1 / (1 + 3) ∧
      0 < semantic_similarity 3 ∧ semantic_similarity 3 ≤ 1) :=
  ⟨by norm_num, semantic_similarity_mem_Ioc 3 (by norm_num)⟩

/-- `clamp lo hi q`, as written in the specification. -/
def clamp (lo hi q : ℚ) : ℚ := max lo (min hi q)

/-- C3: for every raw record, the (pre-rounding) confidence equals
`clamp(0.7 * semantic_similarity + 0.3 * term_match_score, 0, 1)`, and the
`confidence` field stored in the scored record lies in `[0, 1]`. -/
theorem confidence_eq_clamp (r : RawResult) :
    confidenceOf SearchAction.new r =
      clamp 0 1 ((7/10) * semantic_similarity r.distance +
        (3/10) * term_match_score r.query r.url) ∧
    0 ≤ (scoredResult SearchAction.new r).confidence ∧
    (scoredResult SearchAction.new r).confidence ≤ 1 := by
  have h0 : 0 ≤ confidenceOf SearchAction.new r := confidenceOf_nonneg _ _
  have h1 : confidenceOf SearchAction.new r ≤ 1 := confidenceOf_le_one _ _
  refine ⟨?_, ?_, ?_⟩
  · unfold confidenceOf clamp SearchAction.new
    ring_nf
  · show 0 ≤ round3 (confidenceOf SearchAction.new r)
    have h2 : ((0:ℤ) : ℚ) / 1000 ≤ confidenceOf SearchAction.new r := by
      simpa using h0
    simpa using le_round3 h2
  · show round3 (confidenceOf SearchAction.new r) ≤ 1
    have h2 : confidenceOf SearchAction.new r ≤ ((1000:ℤ) : ℚ) / 1000 := by
      norm_num
      exact h1
    have h3 := round3_le h2
    norm_num at h3
    exact h3

theorem exact_matches_eq_card (q u : List Char) :
    exact_matches q u = ((query_terms q).filter fun t => t ∈ url_terms u).card := by
  have hiff : ∀ t : List Char, (∃ s ∈ url_terms u, t = s) ↔ t ∈ url_terms u := by
    intro t
    constructor
    · rintro ⟨s, hs, rfl⟩
      exact hs
    · intro ht
      exact ⟨t, ht, rfl⟩
  unfold exact_matches
  simp only [hiff]
  exact (Finset.card_filter _ _).symm

theorem sub_matches_eq_card (q u : List Char) :
    sub_matches q u = ((query_terms q).filter fun t => ∃ s ∈ url_terms u, t <:+: s).card := by
  unfold sub_matches
  exact (Finset.card_filter _ _).symm

theorem exact_matches_le_card (q u : List Char) :
    exact_matches q u ≤ (query_terms q).card := by
  rw [exact_matches_eq_card]
  exact Finset.card_filter_le _ _

theorem sub_matches_le_card (q u : List Char) :
    sub_matches q u ≤ (query_terms q).card := by
  rw [sub_matches_eq_card]
  exact Finset.card_filter_le _ _

theorem round3_intMul (z : ℤ) : round3 ((z : ℚ) / 1000) = (z : ℚ) / 1000 :=
  le_antisymm (round3_le le_rfl) (le_round3 le_rfl)

theorem term_score_raw_bounds (q u : List Char) :
    0 ≤ term_match_score q u ∧ term_match_score q u ≤ 3/2 := by
  by_cases h : query_terms q = ∅
  · rw [term_match_score, if_neg (by simp [h])]
    norm_num
  · rw [term_match_score, if_pos (by simpa using h)]
    have hcard : 0 < (query_terms q).card :=
      Finset.card_pos.mpr (Finset.nonempty_iff_ne_empty.mpr h)
    have hc : (0:ℚ) < (query_terms q).card := by exact_mod_cast hcard
    constructor
    · positivity
    · rw [div_le_iff₀ hc]
      have he : ((exact_matches q u : ℚ)) ≤ ((query_terms q).card : ℚ) := by
        exact_mod_cast exact_matches_le_card q u
      have hs : ((sub_matches q u : ℚ)) ≤ ((query_terms q).card : ℚ) := by
        exact_mod_cast sub_matches_le_card q u
      have hsn : (0:ℚ) ≤ (sub_matches q u : ℚ) := by positivity
      linarith

/-- C1 (amended): the term match score and the stored `term_score` field
always lie in `[0, 1.5]`; the upper bound `1.5` (rather than `1`) is attained
because a query term equal to a url term is counted both as an exact and as
a partial match. -/
theorem term_match_score_bounds (a : SearchAction) (r : RawResult) :
    0 ≤ term_match_score r.query r.url ∧ term_match_score r.query r.url ≤ 3/2 ∧
    0 ≤ (scoredResult a r).term_score ∧ (scoredResult a r).term_score ≤ 3/2 := by
  obtain ⟨h0, h1⟩ := term_score_raw_bounds r.query r.url
  refine ⟨h0, h1, ?_, ?_⟩
  · show 0 ≤ round3 (term_match_score r.query r.url)
    have h2 : ((0:ℤ) : ℚ) / 1000 ≤ term_match_score r.query r.url := by simpa using h0
    simpa using le_round3 h2
  · show round3 (term_match_score r.query r.url) ≤ 3/2
    have h2 : term_match_score r.query r.url ≤ ((1500:ℤ) : ℚ) / 1000 := by
      norm_num
      exact h1
    have h3 := round3_le h2
    norm_num at h3
    exact h3

/-- C1 counterexample: for query `"a"` and url `"a"` the computed term match
score is `1.5 > 1`, and the stored `term_score` field is also `1.5 > 1`. -/
theorem term_match_score_gt_one :
    1 < term_match_score "a".toList "a".toList ∧
    1 < (scoredResult SearchAction.new
      { distance := 0, query := "a".toList, url := "a".toList }).term_score := by
  have h1 : exact_matches "a".toList "a".toList = 1 := by decide
  have h2 : sub_matches "a".toList "a".toList = 1 := by decide
  have h3 : (query_terms "a".toList).card = 1 := by decide
  have h4 : query_terms "a".toList ≠ ∅ := by decide
  have hts : term_match_score "a".toList "a".toList = 3/2 := by
    rw [term_match_score, if_pos (by simpa using h4), h1, h2, h3]
    norm_num
  constructor
  · rw [hts]
    norm_num
  · show 1 < round3 (term_match_score "a".toList "a".toList)
    rw [hts, show (3:ℚ)/2 = ((1500:ℤ) : ℚ) / 1000 by norm_num, round3_intMul]
    norm_num

/-- C5: `exact_matches` is the number of query terms occurring verbatim in the
url term set, and the partial-match count (`sub_matches`) is the number of
query terms that are substrings of at least one url term. -/
theorem matches_are_counts (q u : List Char) :
    exact_matches q u = ((query_terms q).filter fun t => t ∈ url_terms u).card ∧
    sub_matches q u = ((query_terms q).filter fun t => ∃ s ∈ url_terms u, t <:+: s).card :=
  ⟨exact_matches_eq_card q u, sub_matches_eq_card q u⟩

theorem sortByConfidence_pairwise (l : List ScoredResult) :
    (sortByConfidence l).Pairwise fun x y => y.confidence ≤ x.confidence := by
  have h := @List.sorted_mergeSort ScoredResult
    (fun x y : ScoredResult => decide (y.confidence ≤ x.confidence))
    (fun a b c hab hbc => by
      simp only [decide_eq_true_eq] at *
      exact le_trans hbc hab)
    (fun a b => by
      simp only [Bool.or_eq_true, decide_eq_true_eq]
      exact le_total b.confidence a.confidence)
    l
  exact h.imp fun hab => by simpa using hab

/-- C2: the output of `process_search_results` is sorted in descending order
of `confidence`, every element has `confidence ≥ 0.4`, and the output is a
permutation of the scored versions of exactly those input records whose
computed confidence reaches the threshold `0.4` (the rest are dropped). -/
theorem process_results_sorted_thresholded (results : List RawResult) :
    (process_search_results SearchAction.new results).Pairwise
      (fun x y => y.confidence ≤ x.confidence) ∧
    (∀ s ∈ process_search_results SearchAction.new results, 2/5 ≤ s.confidence) ∧
    (process_search_results SearchAction.new results).Perm
      ((results.filter fun r =>
          decide (confidenceOf SearchAction.new r ≥ (2/5 : ℚ))).map
        (scoredResult SearchAction.new)) := by
  refine ⟨?_, ?_, ?_⟩
  · rw [process_eq_sort_filterMap]
    exact sortByConfidence_pairwise _
  · intro s hs
    have hmem := (process_perm_filterMap SearchAction.new results).mem_iff.mp hs
    rw [filterMap_threshold_eq_map_filter] at hmem
    obtain ⟨r, hr, rfl⟩ := List.mem_map.mp hmem
    have hconf : confidenceOf SearchAction.new r ≥ 2/5 := by
      have := (List.mem_filter.mp hr).2
      simpa using this
    show 2/5 ≤ round3 (confidenceOf SearchAction.new r)
    have h2 : ((400:ℤ) : ℚ) / 1000 ≤ confidenceOf SearchAction.new r := by
      norm_num
      exact hconf
    have h3 := le_round3 h2
    norm_num at h3
    exact h3
  · have h := process_perm_filterMap SearchAction.new results
    rw [filterMap_threshold_eq_map_filter] at h
    exact h

/-- C6: the semantic similarity is strictly decreasing in the distance, the
resulting confidence is monotonically non-increasing, the similarity equals 1
at distance 0, and it falls below any `ε > 0` at distance `1/ε`. -/
theorem semantic_similarity_strict_anti (d₁ d₂ ε : ℚ) (q u : List Char)
    (h₀ : 0 ≤ d₁) (h₁ : d₁ < d₂) (hε : 0 < ε) :
    semantic_similarity d₂ < semantic_similarity d₁ ∧
    confidenceOf SearchAction.new { distance := d₂, query := q, url := u } ≤
      confidenceOf SearchAction.new { distance := d₁, query := q, url := u } ∧
    semantic_similarity 0 = 1 ∧
    0 ≤ 1/ε ∧ semantic_similarity (1/ε) < ε := by
  have hp1 : (0:ℚ) < 1 + d₁ := by linarith
  have hmono : semantic_similarity d₂ < semantic_similarity d₁ :=
    one_div_lt_one_div_of_lt hp1 (by linarith)
  have hεne : ε ≠ 0 := ne_of_gt hε
  refine ⟨hmono, ?_, ?_, by positivity, ?_⟩
  · unfold confidenceOf
    apply max_le_max le_rfl
    apply min_le_min le_rfl
    simp only [SearchAction.new]
    have hle : semantic_similarity d₂ ≤ semantic_similarity d₁ := le_of_lt hmono
    nlinarith [hle]
  · unfold semantic_similarity
    norm_num
  · unfold semantic_similarity
    rw [div_lt_iff₀ (by positivity : (0:ℚ) < 1 + 1/ε)]
    have hmul : ε * (1 + 1/ε) = ε + 1 := by
      field_simp
    rw [hmul]
    linarith

/-- Witness for C6 at `d₁ = 0`, `d₂ = 1`, `ε = 1`, query and url `"a"`. -/
theorem semantic_similarity_strict_anti_witness :
    0 ≤ (0:ℚ) ∧ (0:ℚ) < 1 ∧ (0:ℚ) < 1 ∧
    (semantic_similarity 1 < semantic_similarity 0 ∧
     confidenceOf SearchAction.new { distance := 1, query := ['a'], url := ['a'] } ≤
       confidenceOf SearchAction.new { distance := 0, query := ['a'], url := ['a'] } ∧
     semantic_similarity 0 = 1 ∧
     0 ≤ 1/(1:ℚ) ∧ semantic_similarity (1/(1:ℚ)) < 1) :=
  ⟨le_refl 0, by norm_num, by norm_num,
    semantic_similarity_strict_anti 0 1 1 ['a'] ['a'] (by norm_num) (by norm_num)
      (by norm_num)⟩

theorem toLower_of_whitespace {c : Char} (h : c.isWhitespace) : c.toLower = c := by
  simp [Char.isWhitespace] at h
  rcases h with ((h | h) | h) | h <;> subst h <;> decide

theorem splitWsAux_nil_of_whitespace {l : List Char}
    (h : ∀ c ∈ l, c.isWhitespace) : splitWsAux l [] = [] := by
  induction l with
  | nil => rfl
  | cons c cs ih =>
    have hc : c.isWhitespace := h c (by simp)
    have hrest := ih fun d hd => h d (by simp [hd])
    simp [splitWsAux, hc, hrest]

/-- C8: if every character of the query is whitespace (in particular if the
query is empty) the query term set is empty and the term match score is 0;
no division by zero occurs. -/
theorem term_match_score_zero_of_whitespace_query (q u : List Char)
    (h : ∀ c ∈ q, c.isWhitespace) :
    query_terms q = ∅ ∧ term_match_score q u = 0 := by
  have hws : ∀ c ∈ q.map Char.toLower, c.isWhitespace := by
    intro c hc
    obtain ⟨d, hd, rfl⟩ := List.mem_map.mp hc
    rw [toLower_of_whitespace (h d hd)]
    exact h d hd
  have hnil : splitWs (q.map Char.toLower) = [] := splitWsAux_nil_of_whitespace hws
  have hq : query_terms q = ∅ := by
    rw [query_terms, hnil]
    rfl
  refine ⟨hq, ?_⟩
  rw [term_match_score, if_neg (by simp [hq])]

/-- Witness for C8 at the one-blank query `" "` and url `"a"`. -/
theorem term_match_score_zero_of_whitespace_query_witness :
    (∀ c ∈ [' '], c.isWhitespace) ∧
    (query_terms [' '] = ∅ ∧ term_match_score [' '] ['a'] = 0) :=
  ⟨by decide, term_match_score_zero_of_whitespace_query [' '] ['a'] (by decide)⟩

/-- A raw result record viewed as a Python dict in which any of the three
keys may be absent. -/
structure RawRecordDict where
  distance : Option ℚ
  query : Option (List Char)
  url : Option (List Char)
deriving DecidableEq

/-- Processing of a single dict record. `none` models an exception: a
`KeyError` on a missing key (keys are read in source order, `distance`
first), or a `ZeroDivisionError` in `1.0 / (1.0 + distance)`. -/
def score_record (a : SearchAction) (rec : RawRecordDict) : Option (Option ScoredResult) :=
  match rec.distance with
  | none => none
  | some dist =>
    if 1 + dist = 0 then none
    else
      match rec.query, rec.url with
      | some q, some u =>
        let r : RawResult := { distance := dist, query := q, url := u }
        some (if confidenceOf a r ≥ a.min_confidence_threshold then some (scoredResult a r)
          else none)
      | _, _ => none

/-- The processing loop over dict records; `none` propagates an exception. -/
def process_loop (a : SearchAction) : List RawRecordDict → Option (List ScoredResult)
  | [] => some []
  | rec :: rest =>
    match score_record a rec with
    | none => none
    | some opt =>
      match process_loop a rest with
      | none => none
      | some tail => some (match opt with | some s => s :: tail | none => tail)

/-- `process_search_results` on dict records with possibly missing keys. -/
def process_search_results_dict (a : SearchAction) (recs : List RawRecordDict) :
    Option (List ScoredResult) :=
  if recs = [] then some []
  else (process_loop a recs).map sortByConfidence

theorem score_record_eq_none_iff (a : SearchAction) (rec : RawRecordDict) :
    score_record a rec = none ↔
      rec.distance = none ∨ rec.query = none ∨ rec.url = none ∨
        rec.distance = some (-1) := by
  obtain ⟨d, q, u⟩ := rec
  cases d with
  | none => simp [score_record]
  | some d =>
    by_cases hz : 1 + d = 0
    · have hd : d = -1 := by linarith
      subst hd
      simp [score_record, hz]
    · have hd : d ≠ -1 := by
        intro hcontra
        apply hz
        rw [hcontra]
        ring
      cases q with
      | none => simp [score_record, hz, hd]
      | some q =>
        cases u with
        | none => simp [score_record, hz, hd]
        | some u => simp [score_record, hz, hd]

theorem process_loop_eq_none_iff (a : SearchAction) (recs : List RawRecordDict) :
    process_loop a recs = none ↔ ∃ rec ∈ recs, score_record a rec = none := by
  induction recs with
  | nil => simp [process_loop]
  | cons rec rest ih =>
    cases hsc : score_record a rec with
    | none =>
      simp only [process_loop, hsc]
      exact ⟨fun _ => ⟨rec, by simp, hsc⟩, fun _ => trivial⟩
    | some opt =>
      cases hloop : process_loop a rest with
      | none =>
        simp only [process_loop, hsc, hloop]
        constructor
        · intro _
          obtain ⟨r, hr, hrn⟩ := ih.mp hloop
          exact ⟨r, by simp [hr], hrn⟩
        · intro _
          trivial
      | some tail =>
        simp only [process_loop, hsc, hloop]
        constructor
        · intro hcontra
          simp at hcontra
        · rintro ⟨r, hr, hrn⟩
          rcases List.mem_cons.mp hr with rfl | hr'
          · rw [hsc] at hrn
            simp at hrn
          · have hres := ih.mpr ⟨r, hr', hrn⟩
            rw [hloop] at hres
            simp at hres

/-- C9 (amended): processing dict records raises an error if and only if some
record lacks one of the keys `distance`, `query`, `url`, or carries
`distance = -1` (which raises `ZeroDivisionError` in `1/(1+distance)`);
malformed records are not defended against. -/
theorem process_dict_error_iff (a : SearchAction) (recs : List RawRecordDict) :
    process_search_results_dict a recs = none ↔
      ∃ rec ∈ recs, rec.distance = none ∨ rec.query = none ∨ rec.url = none ∨
        rec.distance = some (-1) := by
  unfold process_search_results_dict
  by_cases h : recs = []
  · subst h
    simp
  · rw [if_neg h, Option.map_eq_none', process_loop_eq_none_iff]
    simp only [score_record_eq_none_iff]

/-- A dict record with all three keys present and distance `-1`. -/
def recAllKeys : RawRecordDict :=
  { distance := some (-1), query := some ['a'], url := some ['a'] }

/-- C9 counterexample: a record with all three keys present but distance
exactly `-1` still makes processing raise (`ZeroDivisionError`), so
"raises an error iff some record lacks a key" is false. -/
theorem process_dict_error_with_all_keys :
    process_search_results_dict SearchAction.new [recAllKeys] = none ∧
    recAllKeys.distance ≠ none ∧ recAllKeys.query ≠ none ∧ recAllKeys.url ≠ none := by
  refine ⟨?_, by simp [recAllKeys], by simp [recAllKeys], by simp [recAllKeys]⟩
  have hsc : score_record SearchAction.new recAllKeys = none :=
    (score_record_eq_none_iff SearchAction.new recAllKeys).mpr
      (Or.inr (Or.inr (Or.inr rfl)))
  unfold process_search_results_dict
  rw [if_neg (by simp)]
  simp [process_loop, hsc]

/-- One loop iteration with the `self` object threaded explicitly: the loop
body never assigns to `self`, so the action component passes through. -/
def loop_step_st (p : SearchAction × List ScoredResult) (r : RawResult) :
    SearchAction × List ScoredResult :=
  (p.1, appendScored p.1 p.2 r)

/-- `process_search_results` with the `self` object threaded through the
loop; returns the final `self` together with the result list. -/
def process_search_results_st (a : SearchAction) (results : List RawResult) :
    SearchAction × List ScoredResult :=
  if results = [] then (a, [])
  else
    let p := results.foldl loop_step_st (a, [])
    (p.1, sortByConfidence p.2)

theorem foldl_loop_step_st (results : List RawResult) (a : SearchAction)
    (acc : List ScoredResult) :
    results.foldl loop_step_st (a, acc) = (a, results.foldl (appendScored a) acc) := by
  induction results generalizing acc with
  | nil => rfl
  | cons r rs ih =>
    simp only [List.foldl_cons, loop_step_st]
    exact ih _

/-- C10: the threaded `self` object comes back unchanged with all its fields,
the state-threaded run returns the same list as the plain function, the
output is never longer than the input, and every output record is a newly
built record whose `url` comes from some input record. -/
theorem process_results_frame (a : SearchAction) (results : List RawResult) :
    (process_search_results_st a results).1 = a ∧
    (process_search_results_st a results).2 = process_search_results a results ∧
    (process_search_results a results).length ≤ results.length ∧
    ∀ s ∈ process_search_results a results, ∃ r ∈ results, s.url = r.url := by
  have hst : process_search_results_st a results =
      (a, process_search_results a results) := by
    unfold process_search_results_st process_search_results
    by_cases h : results = []
    · simp [h]
    · rw [if_neg h, if_neg h]
      rw [foldl_loop_step_st results a []]
  refine ⟨by rw [hst], by rw [hst], ?_, ?_⟩
  · rw [(process_perm_filterMap a results).length_eq]
    exact List.length_filterMap_le _ _
  · intro s hs
    have hmem := (process_perm_filterMap a results).mem_iff.mp hs
    rw [filterMap_threshold_eq_map_filter] at hmem
    obtain ⟨r, hr, rfl⟩ := List.mem_map.mp hmem
    exact ⟨r, (List.mem_filter.mp hr).1, rfl⟩
